import Mathlib

/-!
Verification of the MMForecasting-Compute data pipeline.

This file gives a shallow embedding of the three source files
(`app/services/data/processing.py`, `app/services/data/ingestion.py`,
`main.py`) and proves properties of the embedded code.

Modelling conventions:

* A pandas timestamp (a calendar date) is a `Nat` day index, with day 0
  a Monday; `freq='B'` business days are exactly the indices `d` with
  `d % 7 < 5`.
* DataFrame cells hold rationals (`ℚ`).  All cells of input rows are
  populated (non-NaN); the only nulls that arise in `clean_and_process`
  are whole rows introduced by `reindex`, which we model with `Option`.
* `np.log` is strictly monotone and injective on `(0, ∞)`, and is finite
  exactly on positive arguments.  We therefore represent the float value
  `np.log r` by its argument `r`: `FVal.fin r` stands for the finite
  float `ln r`; `FVal.pinf`, `FVal.ninf`, `FVal.nan` stand for `inf`,
  `-inf` and `NaN`.  Equality, definedness and sign of log-returns
  transfer exactly along this encoding (`ln r > 0 ↔ r > 1`, etc.).
* `rolling(21).std() * sqrt(252)` is a function of the window of 21
  trailing log-return values, producing NaN when the window is
  incomplete or contains a NaN/±inf entry.  We represent its value by
  `Option (List ℚ)`: `some w` is the (finite) float obtained from the
  window `w` of log-return arguments, `none` is NaN.  Window equality
  implies value equality, and definedness transfers exactly.
-/

unseal Rat.mul Rat.inv

namespace MMF

/-- The non-date cells of one OHLCV row that the pipeline reads or
    carries: `close`, and the `adj_close` cell (meaningful only when the
    table has that column).  Other carried columns (`open`, `high`,
    `low`, `volume`) are never read by `clean_and_process` and are
    omitted from the model. -/
structure Bar where
  close : ℚ
  adj : ℚ
  deriving DecidableEq, Repr

/-- One raw input row: a `date` cell plus the other cells. -/
structure Row where
  date : Nat
  bar : Bar
  deriving DecidableEq, Repr

/-- A raw input DataFrame: whether the `adj_close` column is present,
    and the rows. -/
structure Table where
  hasAdj : Bool
  rows : List Row
  deriving DecidableEq, Repr

/-- Float classification of a `log_return` cell.  `fin r` encodes the
    finite float `ln r` by its positive argument `r` (see file header). -/
inductive FVal where
  | fin (r : ℚ)
  | pinf
  | ninf
  | nan
  deriving DecidableEq, Repr

/-- One output row of `clean_and_process`: the restored `date` column,
    the carried price cells, and the two derived feature columns. -/
structure OutRow where
  date : Nat
  bar : Bar
  log_return : FVal
  realized_vol : Option (List ℚ)
  deriving DecidableEq, Repr

/-- The output DataFrame of `clean_and_process`. -/
structure OutTable where
  hasAdj : Bool
  rows : List OutRow
  deriving DecidableEq, Repr

/-- Tests whether `d` lies on the `freq='B'` (Monday–Friday) calendar. -/
def isBday (d : Nat) : Bool := d % 7 < 5

/-- Date-ordering used by `df.sort_values('date')`. -/
def dle (a b : Row) : Prop := a.date ≤ b.date

instance : DecidableRel dle := fun a b => Nat.decLe a.date b.date

instance : IsTotal Row dle := ⟨fun a b => Nat.le_total a.date b.date⟩

instance : IsTrans Row dle := ⟨fun _ _ _ h h' => Nat.le_trans h h'⟩

/-- Model of `df.sort_values('date')` (processing.py line 16).  The source uses
    pandas' default quicksort, which is unstable; stability only affects
    which of several equal-dated rows ends first, and the subsequent
    `drop_duplicates` makes the choice invisible to every property
    proved below.  We model a stable sort. -/
def sortRows (l : List Row) : List Row := l.insertionSort dle

/-- Worker for `drop_duplicates`: `seen` holds the dates already kept. -/
def dedupGo (seen : List Nat) : List Row → List Row
  | [] => []
  | x :: xs =>
    if x.date ∈ seen then dedupGo seen xs
    else x :: dedupGo (x.date :: seen) xs

/-- Model of `df.drop_duplicates(subset=['date'])` (processing.py line 16):
    keep the first row of each date. -/
def dedupDates (l : List Row) : List Row := dedupGo [] l

/-- Model of `df.index.min()` over a non-empty frame (processing.py line 23);
    returns 0 on the empty frame, where the source yields `NaT`
    (that case is routed to the error branch of `clean_and_process`). -/
def minDate : List Row → Nat
  | [] => 0
  | r :: rs => rs.foldl (fun m x => Nat.min m x.date) r.date

/-- Model of `df.index.max()` (processing.py line 23). -/
def maxDate : List Row → Nat
  | [] => 0
  | r :: rs => rs.foldl (fun m x => Nat.max m x.date) r.date

/-- Model of `pd.date_range(start=lo, end=hi, freq='B')` (processing.py line 23):
    all business days `d` with `lo ≤ d ≤ hi`, ascending. -/
def bdayRange (lo hi : Nat) : List Nat :=
  (List.range' lo (hi + 1 - lo)).filter isBday

/-- Model of `df.reindex(full_range)` (processing.py line 24) on a frame indexed
    by date: for each day of the range, the row at that date if present
    (`None` models an all-NaN introduced row). -/
def reindex (pos : List Row) (range : List Nat) : List (Nat × Option Bar) :=
  range.map (fun d => (d, (pos.find? (fun r => r.date = d)).map Row.bar))

/-- Worker for `df.ffill(limit=5)` (processing.py line 25): `last` is the
    most recent non-null row, `run` the number of consecutive nulls seen
    since it.  pandas fills at most `limit` consecutive NaNs after a
    valid value; a longer run is only partially filled. -/
def ffillGo (last : Option Bar) (run : Nat) :
    List (Nat × Option Bar) → List (Nat × Option Bar)
  | [] => []
  | (d, some b) :: rest => (d, some b) :: ffillGo (some b) 0 rest
  | (d, none) :: rest =>
    (d, if run < 5 then last else none) :: ffillGo last (run + 1) rest

/-- Model of `df.ffill(limit=5, inplace=True)` (processing.py line 25). -/
def ffill5 (l : List (Nat × Option Bar)) : List (Nat × Option Bar) :=
  ffillGo none 0 l

/-- Model of `df.dropna(inplace=True)` (processing.py line 26): after reindexing,
    the only null cells are the whole rows introduced by `reindex` that
    `ffill` did not fill, so dropping rows with any NaN keeps exactly the
    populated rows. -/
def dropnaAll (l : List (Nat × Option Bar)) : List (Nat × Bar) :=
  l.filterMap (fun p => p.2.map (fun b => (p.1, b)))

/-- Model of `price_col = 'adj_close' if 'adj_close' in df.columns else 'close'`
    (processing.py line 28). -/
def priceOf (hasAdj : Bool) (b : Bar) : ℚ :=
  if hasAdj then b.adj else b.close

/-- Float classification of `np.log(cur / prev)` (processing.py
    line 29), following IEEE division and `np.log` on the edge cases:
    `x/0 = ±inf` (`0/0 = NaN`), `log r` finite iff `r > 0`,
    `log 0 = -inf`, `log` of a negative or NaN argument is NaN. -/
def npLogDiv (cur prev : ℚ) : FVal :=
  if prev = 0 then (if 0 < cur then .pinf else .nan)
  else if 0 < cur / prev then .fin (cur / prev)
  else if cur / prev = 0 then .ninf
  else .nan

/-- Worker for the `log_return` column: `prev` is the previous row
    (`shift(1)`), and each subsequent row contributes
    `np.log(price_t / price_{t-1})`. -/
def lrAux (hasAdj : Bool) (prev : Bar) : List (Nat × Bar) → List FVal
  | [] => []
  | (_, b) :: rest =>
    npLogDiv (priceOf hasAdj b) (priceOf hasAdj prev) :: lrAux hasAdj b rest

/-- Model of `df['log_return'] = np.log(df[price_col] / df[price_col].shift(1))`
    (processing.py line 29): NaN on the first row (no predecessor). -/
def logReturns (hasAdj : Bool) : List (Nat × Bar) → List FVal
  | [] => []
  | (_, b) :: rest => .nan :: lrAux hasAdj b rest

/-- Finite-part extraction: `finPart v = some r` iff the log-return cell `v` is a finite float. -/
def finPart : FVal → Option ℚ
  | .fin r => some r
  | _ => none

/-- Model of `df['log_return'].rolling(window=21).std() * np.sqrt(252)` at
    position `i` (processing.py line 32), represented by its defining
    window (see file header): defined (non-NaN) iff the trailing window
    of 21 log-return cells exists and consists of finite floats. -/
def rollingVolWindow (lrs : List FVal) (i : Nat) : Option (List ℚ) :=
  if 20 ≤ i then
    ((List.range 21).map (fun j => lrs.getD (i - 20 + j) .nan)).mapM finPart
  else none

/-- The whole `realized_vol` column. -/
def rvList (lrs : List FVal) : List (Option (List ℚ)) :=
  (List.range lrs.length).map (rollingVolWindow lrs)

/-- Feature derivation and final cleanup (processing.py lines 27–38):
    compute `log_return` and `realized_vol`, then
    `df.dropna(subset=['log_return','realized_vol'])` keeps exactly the
    rows where neither is NaN, and `reset_index` restores `date` as a
    column.  `outFilter` is the per-row keep/drop decision. -/
def outFilter (t : (Nat × Bar) × FVal × Option (List ℚ)) : Option OutRow :=
  if t.2.1 ≠ FVal.nan ∧ t.2.2.isSome then
    some ⟨t.1.1, t.1.2, t.2.1, t.2.2⟩
  else none

def featureRows (hasAdj : Bool) (kept : List (Nat × Bar)) : List OutRow :=
  (kept.zip ((logReturns hasAdj kept).zip (rvList (logReturns hasAdj kept)))).filterMap
    outFilter

/-- processing.py lines 16–17: sort by date, drop duplicate dates, keep
    rows with positive close. -/
def posRows (t : Table) : List Row :=
  (dedupDates (sortRows t.rows)).filter (fun r => 0 < r.bar.close)

/-- processing.py lines 23–26: build the business-day range over
    `[min date, max date]`, reindex onto it, forward-fill with limit 5,
    drop still-null rows. -/
def alignedRows (pos : List Row) : List (Nat × Bar) :=
  dropnaAll (ffill5 (reindex pos (bdayRange (minDate pos) (maxDate pos))))

/-- Model of `DataProcessor.clean_and_process` (processing.py lines 8–38).
    An empty input is returned unchanged (modelled as the empty output
    table).  If cleaning leaves zero rows, `df.index.min()` is `NaT` and
    `pd.date_range(start=NaT, end=NaT, freq='B')` raises `ValueError`,
    modelled by the `.error` branch. -/
def clean_and_process (t : Table) : Except String OutTable :=
  if t.rows.isEmpty then .ok ⟨t.hasAdj, []⟩
  else
    match posRows t with
    | [] => .error "ValueError: Neither start nor end can be NaT"
    | p :: ps => .ok ⟨t.hasAdj, featureRows t.hasAdj (alignedRows (p :: ps))⟩

/-- Re-package an output table as an input table (used to state
    idempotence): keep `date` and the price cells; the derived columns
    of the output are non-null everywhere and are overwritten by a
    second run, so they are invisible to `clean_and_process`. -/
def reprocess (o : OutTable) : Table :=
  ⟨o.hasAdj, o.rows.map (fun r => ⟨r.date, r.bar⟩)⟩

/-- Business-day index `m` as a day number (day 0 a Monday): the order
    isomorphism from `Nat` onto the business-day calendar. -/
def dayOf (m : Nat) : Nat := 7 * (m / 5) + m % 5

/-!
## Ingestion (`app/services/data/ingestion.py`)

The two provider calls (`self.alpaca.get_bars(...)` and `yf.download(...)`)
are external network operations; we model each as an oracle mapping the
exact argument strings `(ticker, start, end)` the code passes to either a
raised exception (`.error`) or a returned frame.  Column-level
normalization of provider frames (lower-casing, `adj close` renaming,
column selection, timezone stripping of the `timestamp` index) is
value-preserving re-packaging and is absorbed into the oracle result
types; no claim below inspects it.
-/

/-- One bar of an Alpaca `get_bars(...).df` response: a `timestamp`
    index value (a day instant; `tz_convert(None)` strips the timezone,
    leaving the same instant) and the price cells. -/
structure AlpacaBar where
  timestamp : Nat
  bar : Bar
  deriving DecidableEq, Repr

/-- The external world an `DataIngestion` object sees: whether both
    `ALPACA_API_KEY` and `ALPACA_API_SECRET` were present at
    construction, whether the `REST(...)` constructor raised, and the
    two provider oracles. -/
structure Env where
  alpacaCreds : Bool
  alpacaInitFails : Bool
  alpacaResp : String → String → String → Except String (List AlpacaBar)
  yahooResp : String → String → String → Except String Table

/-- Client presence: `self.alpaca` is non-None iff credentials were present and the
    client constructor did not raise (ingestion.py lines 10–27). -/
def alpacaClient (env : Env) : Bool :=
  env.alpacaCreds && !env.alpacaInitFails

/-- A start/end date argument of `fetch_data`:
    `Union[str, date, datetime]`. -/
inductive DateInput where
  | str (s : String)
  | dateV (y m d : Nat)
  | datetimeV (y m d : Nat)
  deriving DecidableEq, Repr

/-- Zero-padding to two digits, as in `strftime("%m")`/`strftime("%d")`. -/
def pad2 (n : Nat) : String :=
  (if n < 10 then "0" else "") ++ toString n

/-- Zero-padding to four digits, as in CPython `strftime("%Y")`. -/
def pad4 (n : Nat) : String :=
  (if n < 10 then "000" else if n < 100 then "00" else
    if n < 1000 then "0" else "") ++ toString n

/-- Model of `DataIngestion._format_date` (ingestion.py lines 108–111):
    `date`/`datetime` values become `strftime("%Y-%m-%d")`; any other
    value — in particular any string — is returned unchanged. -/
def _format_date : DateInput → String
  | .str s => s
  | .dateV y m d => pad4 y ++ "-" ++ pad2 m ++ "-" ++ pad2 d
  | .datetimeV y m d => pad4 y ++ "-" ++ pad2 m ++ "-" ++ pad2 d

/-- Model of `DataIngestion._fetch_alpaca` (ingestion.py lines 55–83): empty
    frame when the client is disabled; any exception from the provider
    call or normalization is caught and converted to an empty frame;
    otherwise the time-indexed bars become rows with a `date` column
    (no `adj_close` column: `adjustment='raw'`). -/
def _fetch_alpaca (env : Env) (ticker start_ end_ : String) : Table :=
  if !(alpacaClient env) then ⟨false, []⟩
  else
    match env.alpacaResp ticker start_ end_ with
    | .error _ => ⟨false, []⟩
    | .ok bars =>
      if bars.isEmpty then ⟨false, []⟩
      else ⟨false, bars.map (fun b => ⟨b.timestamp, b.bar⟩)⟩

/-- Model of `DataIngestion._fetch_yahoo` (ingestion.py lines 84–107): any
    exception from the download or normalization is caught and
    converted to an empty frame; an empty response is returned as-is;
    otherwise the normalized frame is returned. -/
def _fetch_yahoo (env : Env) (ticker start_ end_ : String) : Table :=
  match env.yahooResp ticker start_ end_ with
  | .error _ => ⟨false, []⟩
  | .ok df => df

/-- The error raised by an unknown source selector. -/
inductive FetchErr where
  | valueError (msg : String)
  deriving DecidableEq, Repr

/-- Model of `DataIngestion.fetch_data` (ingestion.py lines 28–54): normalize the
    date bounds, then dispatch on the `source` string; an unknown
    source raises `ValueError(f"Unknown source: {source}")`.
    `force_fresh` is accepted and never read. -/
def fetch_data (env : Env) (ticker : String) (start_date end_date : DateInput)
    (source : String) (force_fresh : Bool) : Except FetchErr Table :=
  let start_str := _format_date start_date
  let end_str := _format_date end_date
  if source = "alpaca" then .ok (_fetch_alpaca env ticker start_str end_str)
  else if source = "yahoo" then .ok (_fetch_yahoo env ticker start_str end_str)
  else .error (.valueError ("Unknown source: " ++ source))

/-!
## Run endpoint (`main.py`)

The Supabase client is modelled as a read oracle (the single
`runs`-row select) plus a write log: the pair returned by
`run_compute_job` is (HTTP outcome, ordered list of store writes).
-/

/-- Python `str.strip()` on a character list: drop leading and trailing
    whitespace. -/
def stripChars (cs : List Char) : List Char :=
  ((cs.dropWhile Char.isWhitespace).reverse.dropWhile Char.isWhitespace).reverse

/-- Python `str.strip()` (main.py line 46).  Lean's `Char.isWhitespace`
    covers space, tab, CR and LF; Python additionally strips `\v`, `\f`
    and Unicode spaces, which no claim exercises. -/
def pyStrip (s : String) : String := String.mk (stripChars s.data)

/-- One write against the external store. -/
inductive StoreWrite where
  | updateRuns (runId : String) (status progressStep : String) (progressPct : Nat)
  | upsertRunResults (runId model : String)
  | upsertRunTimeseries (runId : String) (rows : Nat)
  deriving DecidableEq, Repr

/-- The configuration row read from the `runs` table. -/
structure RunCfg where
  ticker : String
  startDate : String
  endDate : String
  frequency : String
  deriving DecidableEq, Repr

/-- The store oracle: `select(...).eq("run_id", run_id).single()` result. -/
structure Store where
  runRow : String → Option RunCfg

/-- An HTTP error: status code and detail. -/
structure HttpErr where
  status : Nat
  detail : String
  deriving DecidableEq, Repr

/-- The success response of the endpoint (`received_at` omitted: it is
    a wall-clock timestamp). -/
structure RunResponse where
  run_id : String
  status : String
  deriving DecidableEq, Repr

/-- Model of `run_compute_job` (main.py lines 44–156): trim the run id and reject
    an empty result with HTTP 400 before any store access; then mark the
    run running, load its configuration (a missing row raises
    `RuntimeError`, caught by the handler which marks the run failed and
    returns HTTP 500), write placeholder results and time-series rows,
    and mark the run complete. -/
def run_compute_job (store : Store) (payload_run_id : String) :
    Except HttpErr RunResponse × List StoreWrite :=
  let run_id := pyStrip payload_run_id
  if run_id = "" then
    (.error ⟨400, "run_id must be non-empty"⟩, [])
  else
    let w1 := StoreWrite.updateRuns run_id "running" "starting" 5
    match store.runRow run_id with
    | none =>
      (.error ⟨500, "RuntimeError: run_id not found in runs table"⟩,
        [w1, StoreWrite.updateRuns run_id "failed" "error" 100])
    | some _ =>
      (.ok ⟨run_id, "complete"⟩,
        [w1,
         StoreWrite.updateRuns run_id "running" "loaded_config" 15,
         StoreWrite.updateRuns run_id "running" "writing_results" 80,
         StoreWrite.upsertRunResults run_id "arima_garch",
         StoreWrite.upsertRunResults run_id "xgboost",
         StoreWrite.upsertRunResults run_id "lstm",
         StoreWrite.upsertRunTimeseries run_id 5,
         StoreWrite.updateRuns run_id "complete" "done" 100])


instance {e a : Type} [DecidableEq e] [DecidableEq a] :
    DecidableEq (Except e a) := fun x y =>
  match x, y with
  | .ok u, .ok v =>
    if h : u = v then isTrue (congrArg Except.ok h)
    else isFalse (fun hh => h (Except.ok.inj hh))
  | .error u, .error v =>
    if h : u = v then isTrue (congrArg Except.error h)
    else isFalse (fun hh => h (Except.error.inj hh))
  | .ok _, .error _ => isFalse (fun hh => Except.noConfusion hh)
  | .error _, .ok _ => isFalse (fun hh => Except.noConfusion hh)

/-- The dates of a successful `clean_and_process` output (empty on the
    raising branch). -/
def cleanDatesOf (t : Table) : List Nat :=
  match clean_and_process t with
  | .ok o => o.rows.map (fun r => r.date)
  | .error _ => []

/-- Thirty business-day rows at constant price with a gap of exactly 5
    business days: business-day indices 0–24 and 30–34 are present, so
    indices 25–29 (days 35–39) are missing. -/
def t5gap : Table :=
  ⟨false,
    ((List.range 25).map (fun i => ⟨dayOf i, ⟨1, 0⟩⟩)) ++
      ((List.range 5).map (fun i => ⟨dayOf (30 + i), ⟨1, 0⟩⟩))⟩

/-- Thirty business-day rows at constant price with a gap of exactly 6
    business days: business-day indices 0–24 and 31–35 are present, so
    indices 25–30 (days 35, 36, 37, 38, 39, 42) are missing. -/
def t6gap : Table :=
  ⟨false,
    ((List.range 25).map (fun i => ⟨dayOf i, ⟨1, 0⟩⟩)) ++
      ((List.range 5).map (fun i => ⟨dayOf (31 + i), ⟨1, 0⟩⟩))⟩

/-- The projection of an output row back to its aligned-frame entry. -/
def projOut (r : OutRow) : Nat × Bar := (r.date, r.bar)

/-- Inverse of `dayOf` on business days. -/
def bIdx (d : Nat) : Nat := 5 * (d / 7) + d % 7

/-- Input for the invariant witness: 22 consecutive business days at
    constant price. -/
def t22 : Table := ⟨false, (List.range 22).map (fun i => ⟨dayOf i, ⟨1, 0⟩⟩)⟩

/-- Output of `clean_and_process t22`: one surviving row. -/
def o22 : OutTable :=
  ⟨false, [⟨29, ⟨1, 0⟩, .fin 1, some (List.replicate 21 1)⟩]⟩

/-- An input of `n` consecutive business-day rows starting at business
    day `k`, with bar `g i` on the `i`-th row. -/
def consRows (k n : Nat) (g : Nat → Bar) : List Row :=
  (List.range n).map (fun i => ⟨dayOf (k + i), g i⟩)

/-- The `log_return` column of a 30-row consecutive close-price series:
    NaN at position 0, `np.log(c p / c (p-1))` afterwards. -/
def lrFc (c : Nat → ℚ) (p : Nat) : FVal :=
  if p = 0 then .nan else npLogDiv (c p) (c (p - 1))

/-- The whole `log_return` column as a list. -/
def lrListC (c : Nat → ℚ) : List FVal := (List.range' 0 30).map (lrFc c)

/-- The per-index output decision of the 30-row scenario. -/
def outAt (c : Nat → ℚ) (k i : Nat) : Option OutRow :=
  outFilter ((dayOf (k + i), Bar.mk (c i) 0),
    (lrFc c i, rollingVolWindow (lrListC c) i))

/-- Thirty consecutive business days at constant price 1. -/
def t30c : Table := ⟨false, consRows 0 30 (fun x => ⟨1, 0⟩)⟩

/-- The output of `clean_and_process t30c`: 9 rows. -/
def out30c : OutTable :=
  ⟨false, (List.range' 21 9).map (fun i =>
    ⟨dayOf i, ⟨1, 0⟩, .fin 1, some (List.replicate 21 1)⟩)⟩

/-!
## Easy claims: ingestion and endpoint behaviour
-/

/-- C5: for every ticker and date range, calling `fetch_data` with a
    source selector other than the two known provider identifiers
    raises `ValueError(f"Unknown source: {source}")`; it neither returns
    an empty result nor ignores the selector. -/
theorem fetch_data_unknown_source (env : Env) (ticker : String)
    (sd ed : DateInput) (source : String) (ff : Bool)
    (h1 : source ≠ "alpaca") (h2 : source ≠ "yahoo") :
    fetch_data env ticker sd ed source ff =
      .error (.valueError ("Unknown source: " ++ source)) := by
  simp [fetch_data, h1, h2]

/-- Witness for `fetch_data_unknown_source` at the concrete selector
    `"supabase"`. -/
theorem fetch_data_unknown_source_witness :
    fetch_data
        ⟨true, false, fun _ _ _ => .ok [], fun _ _ _ => .ok ⟨false, []⟩⟩
        "TEST" (.str "2024-01-01") (.str "2024-02-01") "supabase" false =
      .error (.valueError ("Unknown source: " ++ "supabase")) :=
  fetch_data_unknown_source _ _ _ _ _ _ (by decide) (by decide)

/-- C6: for every recognized source selector, `fetch_data` never
    propagates a provider exception — a raising oracle yields the empty
    frame — and the credential-requiring provider queried without
    credentials always yields the empty frame rather than raising. -/
theorem fetch_data_degrades_to_empty (env : Env) (ticker : String)
    (sd ed : DateInput) (ff : Bool) (msgA msgY : String) :
    ((env.alpacaResp ticker (_format_date sd) (_format_date ed) = .error msgA) →
        fetch_data env ticker sd ed "alpaca" ff = .ok ⟨false, []⟩)
    ∧ ((env.yahooResp ticker (_format_date sd) (_format_date ed) = .error msgY) →
        fetch_data env ticker sd ed "yahoo" ff = .ok ⟨false, []⟩)
    ∧ (env.alpacaCreds = false →
        fetch_data env ticker sd ed "alpaca" ff = .ok ⟨false, []⟩) := by
  refine ⟨fun hA => ?_, fun hY => ?_, fun hC => ?_⟩
  · simp [fetch_data, _fetch_alpaca, hA]
  · simp [fetch_data, _fetch_yahoo, hY]
  · simp [fetch_data, _fetch_alpaca, alpacaClient, hC]

/-- Witness for `fetch_data_degrades_to_empty`: an environment whose
    both providers raise and that has no credentials. -/
theorem fetch_data_degrades_to_empty_witness :
    fetch_data
        ⟨false, false, fun _ _ _ => .error "boom", fun _ _ _ => .error "boom"⟩
        "TEST" (.str "2024-01-01") (.str "2024-02-01") "yahoo" false =
      .ok ⟨false, []⟩ :=
  (fetch_data_degrades_to_empty
    ⟨false, false, fun _ _ _ => .error "boom", fun _ _ _ => .error "boom"⟩
    "TEST" (.str "2024-01-01") (.str "2024-02-01") false "boom" "boom").2.1 rfl

/-- C7: a run request whose identifier is empty after trimming fails
    with HTTP 400 and performs no store writes. -/
theorem run_empty_id_no_writes (store : Store) (payload : String)
    (h : pyStrip payload = "") :
    run_compute_job store payload =
      (.error ⟨400, "run_id must be non-empty"⟩, []) := by
  simp [run_compute_job, h]

/-- Witness for `run_empty_id_no_writes` at the whitespace payload. -/
theorem run_empty_id_no_writes_witness :
    run_compute_job ⟨fun _ => none⟩ "   " =
      (.error ⟨400, "run_id must be non-empty"⟩, []) :=
  run_empty_id_no_writes ⟨fun _ => none⟩ "   " (by decide)

/-- C8: a non-empty input all of whose rows have `close ≤ 0` makes
    `clean_and_process` raise: the positive-close filter leaves zero
    rows, so `pd.date_range(start=NaT, end=NaT, freq='B')` fails with
    `ValueError` instead of returning a frame. -/
theorem clean_nonpositive_close_raises :
    (Table.mk false [⟨0, ⟨0, 0⟩⟩, ⟨1, ⟨-3, 0⟩⟩]).rows ≠ [] ∧
    (∀ r ∈ (Table.mk false [⟨0, ⟨0, 0⟩⟩, ⟨1, ⟨-3, 0⟩⟩]).rows, r.bar.close ≤ 0) ∧
    clean_and_process (Table.mk false [⟨0, ⟨0, 0⟩⟩, ⟨1, ⟨-3, 0⟩⟩]) =
      .error "ValueError: Neither start nor end can be NaT" :=
  ⟨by decide, by decide, by decide⟩

/-- C9: the `force_fresh` parameter of `fetch_data` is never read: two
    calls identical except for its value return the same result. -/
theorem fetch_data_force_fresh_irrelevant (env : Env) (ticker : String)
    (sd ed : DateInput) (source : String) (b1 b2 : Bool) :
    fetch_data env ticker sd ed source b1 =
      fetch_data env ticker sd ed source b2 := rfl

/-- C10: `_format_date` validates nothing for strings — every string is
    returned unchanged — and `fetch_data` hands exactly that string to
    the selected provider as the date bound. -/
theorem format_date_string_verbatim (env : Env) (ticker : String)
    (s e : String) (ff : Bool) :
    _format_date (.str s) = s ∧
    fetch_data env ticker (.str s) (.str e) "yahoo" ff =
      .ok (_fetch_yahoo env ticker s e) ∧
    fetch_data env ticker (.str s) (.str e) "alpaca" ff =
      .ok (_fetch_alpaca env ticker s e) :=
  ⟨rfl, rfl, rfl⟩


/-!
## C1: the forward-fill gap policy

`df.ffill(limit=5)` fills, inside a run of consecutive NaN rows that
follows a valid row, the first `min(run length, 5)` rows; a longer run
is only *partially* filled, not left untouched.
-/

theorem dropnaAll_cons_some (d : Nat) (b : Bar) (l : List (Nat × Option Bar)) :
    dropnaAll ((d, some b) :: l) = (d, b) :: dropnaAll l := rfl

theorem dropnaAll_cons_none (d : Nat) (l : List (Nat × Option Bar)) :
    dropnaAll ((d, none) :: l) = dropnaAll l := rfl

theorem ffillGo_gap_run (v : Bar) :
    ∀ (gds : List Nat) (run : Nat),
      dropnaAll (ffillGo (some v) run
          (gds.map (fun d => (d, (none : Option Bar))))) =
        (gds.take (5 - run)).map (fun d => (d, v)) := by
  intro gds
  induction gds with
  | nil => intro run; simp [ffillGo, dropnaAll]
  | cons d gds ih =>
    intro run
    show dropnaAll ((d, if run < 5 then some v else none) ::
        ffillGo (some v) (run + 1) (gds.map (fun x => (x, none)))) = _
    by_cases h : run < 5
    · rw [if_pos h, dropnaAll_cons_some, ih (run + 1),
        show 5 - run = (5 - (run + 1)) + 1 by omega]
      simp [List.take_succ_cons]
    · rw [if_neg h, dropnaAll_cons_none, ih (run + 1),
        show 5 - (run + 1) = 0 by omega, show 5 - run = 0 by omega]
      simp

/-- C1 (amended): inside a run of missing business days that follows a
    present row, forward-fill fills exactly the first
    `min(run length, 5)` introduced rows and the rest are dropped; so a
    gap of exactly 5 business days is entirely filled (concretely: the
    five introduced days 35–39 of `t5gap` all survive to the output),
    while for a gap of 6 the first 5 introduced rows are filled and
    survive and only the 6th is dropped (concretely: of the six
    introduced days of `t6gap`, days 35–39 survive and day 42 does not). -/
theorem ffill_gap_policy (v : Bar) (d0 : Nat) (gds : List Nat) :
    (dropnaAll (ffill5 ((d0, some v) ::
        gds.map (fun d => (d, (none : Option Bar))))) =
      (d0, v) :: (gds.take 5).map (fun d => (d, v)))
    ∧ (([35, 36, 37, 38, 39].all (fun d => d ∈ cleanDatesOf t5gap)) = true)
    ∧ (([35, 36, 37, 38, 39].all (fun d => d ∈ cleanDatesOf t6gap)) = true)
    ∧ (42 ∈ cleanDatesOf t5gap ∧ 42 ∉ cleanDatesOf t6gap) := by
  refine ⟨?_, by decide, by decide, by decide, by decide⟩
  have := ffillGo_gap_run v gds 0
  simp [ffill5, ffillGo, dropnaAll] at this ⊢
  exact this

/-- C1 (counterexample to the original claim): in `t6gap` the business
    day 35 is one of the 6 introduced by re-indexing (it is not an input
    date), yet it is forward-filled and survives to the output — so it
    is false that none of the 6 introduced rows are filled and all are
    dropped. -/
theorem ffill_gap6_cex :
    (∀ r ∈ t6gap.rows, r.date ≠ 35) ∧ 35 ∈ cleanDatesOf t6gap :=
  ⟨by decide, by decide⟩


/-!
## Structural lemmas for the aligned frame
-/

theorem reindex_fst (pos : List Row) (rng : List Nat) :
    (reindex pos rng).map Prod.fst = rng := by
  unfold reindex
  rw [List.map_map]
  exact List.map_id rng

theorem ffillGo_fst :
    ∀ (l : List (Nat × Option Bar)) (last : Option Bar) (run : Nat),
      (ffillGo last run l).map Prod.fst = l.map Prod.fst := by
  intro l
  induction l with
  | nil => intro last run; rfl
  | cons p rest ih =>
    intro last run
    obtain ⟨d, ob⟩ := p
    cases ob with
    | some b => simpa [ffillGo] using ih (some b) 0
    | none => simpa [ffillGo] using ih last (run + 1)

theorem dropnaAll_fst_sublist (l : List (Nat × Option Bar)) :
    List.Sublist ((dropnaAll l).map Prod.fst) (l.map Prod.fst) := by
  induction l with
  | nil => simp [dropnaAll]
  | cons p rest ih =>
    obtain ⟨d, ob⟩ := p
    cases ob with
    | some b =>
      rw [dropnaAll_cons_some]
      exact (List.map_cons _ _ _) ▸ ih.cons₂ d
    | none =>
      rw [dropnaAll_cons_none]
      exact ih.cons d

theorem pairwise_lt_range_go : ∀ (n s : Nat), (List.range' s n).Pairwise (· < ·) := by
  intro n
  induction n with
  | zero => intro s; simp
  | succ n ih =>
    intro s
    rw [List.range'_succ]
    refine List.Pairwise.cons ?_ (ih (s + 1))
    intro x hx
    have hm := List.mem_range'_1.mp hx
    omega

theorem bdayRange_pairwise (lo hi : Nat) :
    (bdayRange lo hi).Pairwise (· < ·) :=
  List.Pairwise.sublist (List.filter_sublist _) (pairwise_lt_range_go _ _)

theorem mem_bdayRange {d lo hi : Nat} (h : d ∈ bdayRange lo hi) :
    isBday d = true ∧ lo ≤ d ∧ d ≤ hi := by
  unfold bdayRange at h
  have h1 := List.of_mem_filter h
  have h2 := List.mem_range'_1.mp (List.mem_of_mem_filter h)
  exact ⟨h1, h2.1, by omega⟩

/-- The dates of the aligned frame are a subsequence of the
    business-day range. -/
theorem alignedRows_fst_sublist (pos : List Row) :
    List.Sublist ((alignedRows pos).map Prod.fst)
      (bdayRange (minDate pos) (maxDate pos)) := by
  unfold alignedRows ffill5
  have h1 := dropnaAll_fst_sublist
    (ffillGo none 0 (reindex pos (bdayRange (minDate pos) (maxDate pos))))
  rwa [ffillGo_fst, reindex_fst] at h1

theorem outFilter_proj {a : Nat × Bar} {x : FVal × Option (List ℚ)}
    {c : OutRow} (h : outFilter (a, x) = some c) : projOut c = a := by
  unfold outFilter at h
  split at h
  · cases h; rfl
  · cases h

theorem outFilter_nan (a : Nat × Bar) (rv : Option (List ℚ)) :
    outFilter (a, (FVal.nan, rv)) = none := by
  simp [outFilter]

theorem filterMap_zip_proj_sublist {β : Type} :
    ∀ (l1 : List (Nat × Bar)) (l2 : List β)
      (f : (Nat × Bar) × β → Option OutRow)
      (hf : ∀ a b c, f (a, b) = some c → projOut c = a),
      List.Sublist (((l1.zip l2).filterMap f).map projOut) l1 := by
  intro l1
  induction l1 with
  | nil => intro l2 f hf; simp
  | cons a l1 ih =>
    intro l2 f hf
    cases l2 with
    | nil => simp
    | cons b l2 =>
      rw [List.zip_cons_cons, List.filterMap_cons]
      cases hfa : f (a, b) with
      | none => exact (ih l2 f hf).cons a
      | some c =>
        rw [List.map_cons, hf a b c hfa]
        exact (ih l2 f hf).cons₂ a

/-- Every output row comes from an aligned row strictly after the first:
    the first aligned row has NaN `log_return` and is always dropped. -/
theorem featureRows_proj_tail_sublist (hA : Bool) (kept : List (Nat × Bar)) :
    List.Sublist ((featureRows hA kept).map projOut) kept.tail := by
  cases kept with
  | nil => simp [featureRows, logReturns, rvList]
  | cons k0 krest =>
    obtain ⟨d0, b0⟩ := k0
    rw [featureRows]
    rw [show logReturns hA ((d0, b0) :: krest) = .nan :: lrAux hA b0 krest
      from rfl]
    cases hrv : rvList (.nan :: lrAux hA b0 krest) with
    | nil => simp
    | cons rv0 rvt =>
      rw [List.zip_cons_cons, List.zip_cons_cons, List.filterMap_cons,
        outFilter_nan]
      exact filterMap_zip_proj_sublist krest _ outFilter
        (fun a b c h => outFilter_proj h)

theorem featureRows_proj_sublist (hA : Bool) (kept : List (Nat × Bar)) :
    List.Sublist ((featureRows hA kept).map projOut) kept :=
  (featureRows_proj_tail_sublist hA kept).trans (List.tail_sublist kept)

theorem mem_featureRows {hA : Bool} {kept : List (Nat × Bar)} {r : OutRow}
    (h : r ∈ featureRows hA kept) :
    r.log_return ≠ .nan ∧ r.realized_vol.isSome = true := by
  rw [featureRows] at h
  obtain ⟨t, _, hf⟩ := List.mem_filterMap.mp h
  unfold outFilter at hf
  split at hf
  · rename_i hcond
    cases hf
    exact hcond
  · cases hf


/-!
## C4: output invariants
-/

/-- C4: for every input table, a successful `clean_and_process` output
    has strictly increasing dates (hence no duplicate dates), every
    output date lies on the Monday–Friday business-day calendar, and
    every output row has non-null `log_return` and non-null
    `realized_vol`. -/
theorem clean_and_process_invariants (t : Table) (o : OutTable)
    (h : clean_and_process t = .ok o) :
    o.rows.Pairwise (fun a b => a.date < b.date) ∧
    (o.rows.map (fun r => r.date)).Nodup ∧
    (∀ r ∈ o.rows, isBday r.date = true ∧ r.log_return ≠ .nan ∧
      r.realized_vol.isSome = true) := by
  unfold clean_and_process at h
  split at h
  · cases h
    simp
  · split at h
    · cases h
    · cases h
      rename_i p ps heq
      set pos := p :: ps with hpos
      have hdates : List.Sublist
          ((featureRows t.hasAdj (alignedRows pos)).map (fun r => r.date))
          (bdayRange (minDate pos) (maxDate pos)) := by
        have h1 := (featureRows_proj_sublist t.hasAdj (alignedRows pos)).map
          Prod.fst
        rw [List.map_map] at h1
        exact h1.trans (alignedRows_fst_sublist pos)
      have hpw : ((featureRows t.hasAdj (alignedRows pos)).map
          (fun r => r.date)).Pairwise (· < ·) :=
        List.Pairwise.sublist hdates (bdayRange_pairwise _ _)
      refine ⟨?_, ?_, ?_⟩
      · exact (List.pairwise_map.mp hpw)
      · exact List.Pairwise.imp Nat.ne_of_lt hpw
      · intro r hr
        have hb : isBday r.date = true := by
          have hm : r.date ∈ (featureRows t.hasAdj (alignedRows pos)).map
              (fun r => r.date) := List.mem_map_of_mem _ hr
          exact (mem_bdayRange (hdates.subset hm)).1
        exact ⟨hb, (mem_featureRows hr).1, (mem_featureRows hr).2⟩

/-- Witness for `clean_and_process_invariants` at `t22`. -/
theorem clean_and_process_invariants_witness :
    o22.rows.Pairwise (fun a b => a.date < b.date) ∧
    (o22.rows.map (fun r => r.date)).Nodup ∧
    (∀ r ∈ o22.rows, isBday r.date = true ∧ r.log_return ≠ .nan ∧
      r.realized_vol.isSome = true) :=
  clean_and_process_invariants t22 o22 (by decide)


/-!
## The business-day calendar as an order isomorphism
-/

theorem isBday_dayOf (m : Nat) : isBday (dayOf m) = true := by
  simp only [isBday, dayOf, decide_eq_true_eq]
  omega

theorem bIdx_dayOf (m : Nat) : bIdx (dayOf m) = m := by
  unfold bIdx dayOf
  omega

theorem dayOf_bIdx {d : Nat} (h : isBday d = true) : dayOf (bIdx d) = d := by
  simp only [isBday, decide_eq_true_eq] at h
  unfold bIdx dayOf
  omega

theorem dayOf_lt_dayOf {m n : Nat} (h : m < n) : dayOf m < dayOf n := by
  unfold dayOf
  omega

theorem dayOf_le_dayOf {m n : Nat} (h : m ≤ n) : dayOf m ≤ dayOf n := by
  unfold dayOf
  omega

theorem bIdx_le_bIdx {d e : Nat} (hd : isBday d = true)
    (he : isBday e = true) (h : d ≤ e) : bIdx d ≤ bIdx e := by
  simp only [isBday, decide_eq_true_eq] at hd he
  unfold bIdx
  omega

theorem mem_bdayRange_iff {d lo hi : Nat} :
    d ∈ bdayRange lo hi ↔ isBday d = true ∧ lo ≤ d ∧ d ≤ hi := by
  constructor
  · exact mem_bdayRange
  · rintro ⟨h1, h2, h3⟩
    unfold bdayRange
    refine List.mem_filter.mpr ⟨List.mem_range'_1.mpr ⟨h2, by omega⟩, h1⟩

theorem sorted_eq_of_mem_iff : ∀ (l1 l2 : List Nat), l1.Pairwise (· < ·) →
    l2.Pairwise (· < ·) → (∀ x, x ∈ l1 ↔ x ∈ l2) → l1 = l2 := by
  intro l1
  induction l1 with
  | nil =>
    intro l2 _ _ hm
    cases l2 with
    | nil => rfl
    | cons b l2 =>
      exact ((List.not_mem_nil b) ((hm b).mpr (List.mem_cons_self b l2))).elim
  | cons a l1 ih =>
    intro l2 h1 h2 hm
    cases l2 with
    | nil =>
      exact ((List.not_mem_nil a) ((hm a).mp (List.mem_cons_self a l1))).elim
    | cons b l2 =>
      have hab : a = b := by
        rcases List.mem_cons.mp ((hm a).mp (List.mem_cons_self a l1)) with
          h | h
        · exact h
        · rcases List.mem_cons.mp ((hm b).mpr (List.mem_cons_self b l2)) with
            h' | h'
          · exact h'.symm
          · have h3 := (List.pairwise_cons.mp h2).1 a h
            have h4 := (List.pairwise_cons.mp h1).1 b h'
            omega
      subst hab
      congr 1
      refine ih l2 (List.pairwise_cons.mp h1).2 (List.pairwise_cons.mp h2).2
        (fun x => ⟨fun hx => ?_, fun hx => ?_⟩)
      · rcases List.mem_cons.mp ((hm x).mp (List.mem_cons_of_mem a hx)) with
          h | h
        · subst h
          exact absurd hx (fun hc =>
            Nat.lt_irrefl x ((List.pairwise_cons.mp h1).1 x hc))
        · exact h
      · rcases List.mem_cons.mp ((hm x).mpr (List.mem_cons_of_mem a hx)) with
          h | h
        · subst h
          exact absurd hx (fun hc =>
            Nat.lt_irrefl x ((List.pairwise_cons.mp h2).1 x hc))
        · exact h

/-- The business-day range between two business days is exactly the
    image of the consecutive index range under `dayOf`. -/
theorem bdayRange_dayOf (k n : Nat) :
    bdayRange (dayOf k) (dayOf (k + n)) =
      (List.range (n + 1)).map (fun i => dayOf (k + i)) := by
  refine sorted_eq_of_mem_iff _ _ (bdayRange_pairwise _ _) ?_ ?_
  · rw [List.range_eq_range']
    refine List.Pairwise.map _ (fun a b hab => ?_)
      (pairwise_lt_range_go (n + 1) 0)
    exact dayOf_lt_dayOf (by omega)
  · intro x
    rw [mem_bdayRange_iff]
    constructor
    · rintro ⟨h1, h2, h3⟩
      have hk : k ≤ bIdx x := by
        have := bIdx_le_bIdx (isBday_dayOf k) h1 h2
        rwa [bIdx_dayOf] at this
      have hn : bIdx x ≤ k + n := by
        have := bIdx_le_bIdx h1 (isBday_dayOf (k + n)) h3
        rwa [bIdx_dayOf] at this
      refine List.mem_map.mpr ⟨bIdx x - k, List.mem_range.mpr (by omega), ?_⟩
      rw [show k + (bIdx x - k) = bIdx x by omega]
      exact dayOf_bIdx h1
    · intro hx
      obtain ⟨i, hi, rfl⟩ := List.mem_map.mp hx
      have hi' := List.mem_range.mp hi
      exact ⟨isBday_dayOf _, dayOf_le_dayOf (by omega),
        dayOf_le_dayOf (by omega)⟩

/-!
## Identity lemmas for already-clean frames
-/

theorem sortRows_eq_self {l : List Row} (h : l.Pairwise dle) :
    sortRows l = l :=
  List.Sorted.insertionSort_eq h

theorem dedupGo_eq_self : ∀ (l : List Row) (seen : List Nat),
    (l.map (fun r => r.date)).Nodup → (∀ x ∈ l, x.date ∉ seen) →
    dedupGo seen l = l := by
  intro l
  induction l with
  | nil => intro seen _ _; rfl
  | cons x xs ih =>
    intro seen hnd hs
    have hx : x.date ∉ seen := hs x (List.mem_cons_self x xs)
    rw [dedupGo, if_neg hx]
    congr 1
    have hnd' : (∀ y ∈ xs, ¬y.date = x.date) ∧
        (xs.map (fun r => r.date)).Nodup := by simpa using hnd
    refine ih _ hnd'.2 (fun y hy hmem => ?_)
    rcases List.mem_cons.mp hmem with h | h
    · exact hnd'.1 y hy h
    · exact hs y (List.mem_cons_of_mem x hy) h

theorem dedupDates_eq_self {l : List Row}
    (h : (l.map (fun r => r.date)).Nodup) : dedupDates l = l :=
  dedupGo_eq_self l [] h (by simp)

theorem filter_pos_eq_self {l : List Row}
    (h : ∀ x ∈ l, 0 < x.bar.close) :
    l.filter (fun r => 0 < r.bar.close) = l := by
  induction l with
  | nil => rfl
  | cons x xs ih =>
    rw [List.filter_cons]
    rw [if_pos (by simpa using h x (List.mem_cons_self x xs))]
    rw [ih (fun y hy => h y (List.mem_cons_of_mem x hy))]

theorem natMin_left {a b : Nat} (h : a ≤ b) : Nat.min a b = a := by
  unfold Nat.min
  omega

theorem natMax_ub {a b M : Nat} (ha : a ≤ M) (hb : b ≤ M) :
    Nat.max a b ≤ M := by
  unfold Nat.max
  omega

theorem natMax_eq_of {a b M : Nat} (h : a = M ∨ b = M) (ha : a ≤ M)
    (hb : b ≤ M) : Nat.max a b = M := by
  unfold Nat.max
  omega

theorem foldl_min_stays : ∀ (rs : List Row) (a : Nat),
    (∀ x ∈ rs, a ≤ x.date) →
    rs.foldl (fun m x => Nat.min m x.date) a = a := by
  intro rs
  induction rs with
  | nil => intro a _; rfl
  | cons x rs ih =>
    intro a h
    have hx : a ≤ x.date := h x (List.mem_cons_self x rs)
    show rs.foldl (fun m x => Nat.min m x.date) (Nat.min a x.date) = a
    rw [natMin_left hx]
    exact ih a (fun y hy => h y (List.mem_cons_of_mem x hy))

theorem foldl_max_reaches : ∀ (rs : List Row) (a M : Nat),
    (a = M ∨ ∃ x ∈ rs, x.date = M) → a ≤ M → (∀ x ∈ rs, x.date ≤ M) →
    rs.foldl (fun m x => Nat.max m x.date) a = M := by
  intro rs
  induction rs with
  | nil =>
    intro a M hmem ha _
    rcases hmem with h | ⟨x, hx, _⟩
    · exact h
    · exact absurd hx (List.not_mem_nil x)
  | cons x rs ih =>
    intro a M hmem ha hub
    show rs.foldl (fun m x => Nat.max m x.date) (Nat.max a x.date) = M
    have hxM : x.date ≤ M := hub x (List.mem_cons_self x rs)
    have hmle : Nat.max a x.date ≤ M := natMax_ub ha hxM
    rcases hmem with h | ⟨y, hy, hyM⟩
    · exact ih _ M (Or.inl (natMax_eq_of (Or.inl h) ha hxM)) hmle
        (fun y hy => hub y (List.mem_cons_of_mem x hy))
    · rcases List.mem_cons.mp hy with h | h
      · have hxM2 : x.date = M := by rw [← h]; exact hyM
        exact ih _ M (Or.inl (natMax_eq_of (Or.inr hxM2) ha hxM)) hmle
          (fun z hz => hub z (List.mem_cons_of_mem x hz))
      · exact ih _ M (Or.inr ⟨y, h, hyM⟩) hmle
          (fun z hz => hub z (List.mem_cons_of_mem x hz))

theorem find?_date_eq_some : ∀ (l : List Row),
    (l.map (fun r => r.date)).Nodup → ∀ r ∈ l,
      l.find? (fun x => x.date = r.date) = some r := by
  intro l
  induction l with
  | nil => intro _ r hr; exact absurd hr (List.not_mem_nil r)
  | cons x xs ih =>
    intro hnd r hr
    have hnd' : (∀ y ∈ xs, ¬y.date = x.date) ∧
        (xs.map (fun r => r.date)).Nodup := by simpa using hnd
    rcases List.mem_cons.mp hr with h | h
    · subst h
      rw [List.find?_cons_of_pos _ (by simp)]
    · have hne : x.date ≠ r.date := fun hc => hnd'.1 r h hc.symm
      rw [List.find?_cons_of_neg _ (by simpa using hne)]
      exact ih hnd'.2 r h

theorem ffillGo_all_some : ∀ (l : List (Nat × Option Bar))
    (last : Option Bar) (run : Nat),
    (∀ p ∈ l, p.2.isSome = true) → ffillGo last run l = l := by
  intro l
  induction l with
  | nil => intro _ _ _; rfl
  | cons p rest ih =>
    intro last run h
    obtain ⟨d, ob⟩ := p
    cases ob with
    | some b =>
      rw [show ffillGo last run ((d, some b) :: rest) =
        (d, some b) :: ffillGo (some b) 0 rest from rfl]
      rw [ih _ _ (fun q hq => h q (List.mem_cons_of_mem _ hq))]
    | none =>
      have := h (d, none) (List.mem_cons_self _ _)
      simp at this

theorem dropnaAll_map_some {α : Type} (f : α → Nat) (g : α → Bar) :
    ∀ (l : List α),
      dropnaAll (l.map (fun x => (f x, some (g x)))) =
        l.map (fun x => (f x, g x)) := by
  intro l
  induction l with
  | nil => rfl
  | cons x xs ih => rw [List.map_cons, dropnaAll_cons_some, ih, List.map_cons]

theorem mapM_finPart_isSome : ∀ (w : List FVal),
    (∀ v ∈ w, (finPart v).isSome = true) →
    (w.mapM finPart).isSome = true := by
  intro w
  induction w with
  | nil => intro _; rfl
  | cons v w ih =>
    intro h
    have hv := h v (List.mem_cons_self v w)
    obtain ⟨r, hr⟩ := Option.isSome_iff_exists.mp hv
    have hw := ih (fun u hu => h u (List.mem_cons_of_mem v hu))
    obtain ⟨ws, hws⟩ := Option.isSome_iff_exists.mp hw
    rw [List.mapM_cons, hr, hws]
    rfl

theorem filterMap_eq_nil_of {α β : Type} (l : List α) (f : α → Option β)
    (h : ∀ a ∈ l, f a = none) : l.filterMap f = [] := by
  induction l with
  | nil => rfl
  | cons a l ih =>
    rw [List.filterMap_cons, h a (List.mem_cons_self a l)]
    exact ih (fun b hb => h b (List.mem_cons_of_mem a hb))

theorem filterMap_eq_map_of {α β : Type} (l : List α) (f : α → Option β)
    (g : α → β) (h : ∀ a ∈ l, f a = some (g a)) :
    l.filterMap f = l.map g := by
  induction l with
  | nil => rfl
  | cons a l ih =>
    rw [List.filterMap_cons, h a (List.mem_cons_self a l), List.map_cons]
    rw [ih (fun b hb => h b (List.mem_cons_of_mem a hb))]

theorem getD_map_range' {α : Type} (f : Nat → α) (d : α) :
    ∀ (n s p : Nat),
      ((List.range' s n).map f).getD p d = if p < n then f (s + p) else d := by
  intro n
  induction n with
  | zero => intro s p; simp
  | succ n ih =>
    intro s p
    rw [List.range'_succ, List.map_cons]
    cases p with
    | zero => simp
    | succ p =>
      rw [List.getD_cons_succ, ih (s + 1) p]
      by_cases hp : p < n
      · rw [if_pos hp, if_pos (by omega), show s + 1 + p = s + (p + 1) by omega]
      · rw [if_neg hp, if_neg (by omega)]

theorem npLogDiv_pos_pos {cur prev : ℚ} (hc : 0 < cur) (hp : 0 < prev) :
    npLogDiv cur prev = .fin (cur / prev) := by
  unfold npLogDiv
  rw [if_neg (by exact ne_of_gt hp), if_pos (div_pos hc hp)]


/-!
## C3: the pipeline on consecutive business-day inputs
-/

theorem consRows_pairwise (k n : Nat) (g : Nat → Bar) :
    (consRows k n g).Pairwise (fun a b => a.date < b.date) := by
  unfold consRows
  rw [List.range_eq_range']
  refine List.Pairwise.map _ (fun a b hab => ?_) (pairwise_lt_range_go n 0)
  exact dayOf_lt_dayOf (by omega)

theorem consRows_nodup (k n : Nat) (g : Nat → Bar) :
    ((consRows k n g).map (fun r => r.date)).Nodup := by
  have h := consRows_pairwise k n g
  have h2 : ((consRows k n g).map (fun r => r.date)).Pairwise (· < ·) :=
    List.pairwise_map.mpr h
  exact List.Pairwise.imp Nat.ne_of_lt h2

theorem consRows_posRows (hA : Bool) (k n : Nat) (g : Nat → Bar)
    (hg : ∀ i, i < n → 0 < (g i).close) :
    posRows ⟨hA, consRows k n g⟩ = consRows k n g := by
  unfold posRows
  rw [sortRows_eq_self (List.Pairwise.imp
    (fun hab => Nat.le_of_lt hab) (consRows_pairwise k n g))]
  rw [dedupDates_eq_self (consRows_nodup k n g)]
  refine filter_pos_eq_self (fun x hx => ?_)
  obtain ⟨i, hi, rfl⟩ := List.mem_map.mp hx
  exact hg i (List.mem_range.mp hi)

theorem consRows_cons (k m : Nat) (g : Nat → Bar) :
    consRows k (m + 1) g =
      ⟨dayOf k, g 0⟩ :: (List.range' 1 m).map (fun i => ⟨dayOf (k + i), g i⟩) := by
  unfold consRows
  rw [List.range_eq_range', List.range'_succ, List.map_cons]
  rfl

theorem consRows_minDate (k m : Nat) (g : Nat → Bar) :
    minDate (consRows k (m + 1) g) = dayOf k := by
  rw [consRows_cons]
  show (_ : List Row).foldl (fun a x => Nat.min a x.date) (dayOf k) = dayOf k
  refine foldl_min_stays _ _ (fun x hx => ?_)
  obtain ⟨i, hi, rfl⟩ := List.mem_map.mp hx
  exact dayOf_le_dayOf (by omega)

theorem consRows_maxDate (k m : Nat) (g : Nat → Bar) :
    maxDate (consRows k (m + 1) g) = dayOf (k + m) := by
  rw [consRows_cons]
  show (_ : List Row).foldl (fun a x => Nat.max a x.date) (dayOf k) = dayOf (k + m)
  cases m with
  | zero => rfl
  | succ m =>
    refine foldl_max_reaches _ _ _ (Or.inr ⟨⟨dayOf (k + (m + 1)), g (m + 1)⟩, ?_, rfl⟩)
      (dayOf_le_dayOf (by omega)) ?_
    · exact List.mem_map_of_mem _ (List.mem_range'_1.mpr (by omega))
    · intro x hx
      obtain ⟨i, hi, rfl⟩ := List.mem_map.mp hx
      have hi' := List.mem_range'_1.mp hi
      exact dayOf_le_dayOf (by omega)

theorem consRows_aligned (k m : Nat) (g : Nat → Bar) :
    alignedRows (consRows k (m + 1) g) =
      (List.range (m + 1)).map (fun i => (dayOf (k + i), g i)) := by
  unfold alignedRows
  rw [consRows_minDate, consRows_maxDate, bdayRange_dayOf]
  have hreindex : reindex (consRows k (m + 1) g)
      ((List.range (m + 1)).map (fun i => dayOf (k + i))) =
      (List.range (m + 1)).map (fun i => (dayOf (k + i), some (g i))) := by
    unfold reindex
    rw [List.map_map]
    refine List.map_congr_left (fun i hi => ?_)
    have hmem : Row.mk (dayOf (k + i)) (g i) ∈ consRows k (m + 1) g :=
      List.mem_map_of_mem _ hi
    have hfind := find?_date_eq_some (consRows k (m + 1) g)
      (consRows_nodup k (m + 1) g) ⟨dayOf (k + i), g i⟩ hmem
    show (dayOf (k + i),
      ((consRows k (m + 1) g).find? (fun x => x.date = dayOf (k + i))).map
        Row.bar) = _
    rw [show ((consRows k (m + 1) g).find?
        (fun x => x.date = dayOf (k + i))) =
        some ⟨dayOf (k + i), g i⟩ from hfind]
    rfl
  rw [hreindex]
  unfold ffill5
  rw [ffillGo_all_some _ none 0 (fun p hp => by
    obtain ⟨i, _, rfl⟩ := List.mem_map.mp hp
    rfl)]
  exact dropnaAll_map_some (fun i => dayOf (k + i)) g _

theorem lrAux_map_range' (hA : Bool) (dts : Nat → Nat) (g : Nat → Bar) :
    ∀ (n s : Nat),
      lrAux hA (g s) ((List.range' (s + 1) n).map (fun i => (dts i, g i))) =
        (List.range' (s + 1) n).map
          (fun i => npLogDiv (priceOf hA (g i)) (priceOf hA (g (i - 1)))) := by
  intro n
  induction n with
  | zero => intro s; rfl
  | succ n ih =>
    intro s
    rw [List.range'_succ, List.map_cons, List.map_cons]
    show npLogDiv (priceOf hA (g (s + 1))) (priceOf hA (g s)) ::
        lrAux hA (g (s + 1))
          ((List.range' (s + 1 + 1) n).map (fun i => (dts i, g i))) = _
    rw [ih (s + 1)]
    rfl

theorem logReturns_consecutive (hA : Bool) (k m : Nat) (g : Nat → Bar) :
    logReturns hA ((List.range (m + 1)).map (fun i => (dayOf (k + i), g i))) =
      (List.range' 0 (m + 1)).map (fun p =>
        if p = 0 then FVal.nan
        else npLogDiv (priceOf hA (g p)) (priceOf hA (g (p - 1)))) := by
  rw [List.range_eq_range', List.range'_succ, List.map_cons, List.map_cons]
  show FVal.nan :: lrAux hA (g 0)
      ((List.range' 1 m).map (fun i => (dayOf (k + i), g i))) = _
  rw [show (List.range' 1 m) = List.range' (0 + 1) m from rfl]
  rw [lrAux_map_range' hA (fun i => dayOf (k + i)) g m 0]
  congr 1
  refine List.map_congr_left (fun p hp => ?_)
  have hp' := List.mem_range'_1.mp hp
  rw [if_neg (by omega)]



theorem getD_lrListC (c : Nat → ℚ) (p : Nat) :
    (lrListC c).getD p FVal.nan = if p < 30 then lrFc c p else FVal.nan := by
  unfold lrListC
  have h := getD_map_range' (lrFc c) FVal.nan 30 0 p
  simpa using h

theorem rv_none_lrListC (c : Nat → ℚ) : ∀ i, i < 21 →
    rollingVolWindow (lrListC c) i = none := by
  intro i hi
  unfold rollingVolWindow
  by_cases h20 : 20 ≤ i
  · rw [if_pos h20]
    have h : i = 20 := by omega
    subst h
    rw [show List.range 21 = 0 :: List.range' 1 20 from by decide]
    rw [List.map_cons]
    rw [show (lrListC c).getD (20 - 20 + 0) FVal.nan = FVal.nan from by
      rw [getD_lrListC]; simp [lrFc]]
    rw [List.mapM_cons]
    rfl
  · rw [if_neg h20]

theorem rv_some_lrListC (c : Nat → ℚ) (hpos : ∀ i, i < 30 → 0 < c i) :
    ∀ i, 21 ≤ i → i < 30 →
      (rollingVolWindow (lrListC c) i).isSome = true := by
  intro i h21 h30
  unfold rollingVolWindow
  rw [if_pos (by omega)]
  refine mapM_finPart_isSome _ (fun v hv => ?_)
  obtain ⟨j, hj, rfl⟩ := List.mem_map.mp hv
  have hj' := List.mem_range.mp hj
  rw [getD_lrListC, if_pos (by omega)]
  rw [show lrFc c (i - 20 + j) =
      FVal.fin (c (i - 20 + j) / c (i - 20 + j - 1)) from by
    unfold lrFc
    rw [if_neg (by omega),
      npLogDiv_pos_pos (hpos _ (by omega)) (hpos _ (by omega))]]
  rfl

theorem rvList_lrListC (c : Nat → ℚ) :
    rvList (lrListC c) =
      (List.range' 0 30).map (rollingVolWindow (lrListC c)) := by
  unfold rvList
  rw [show (lrListC c).length = 30 from by simp [lrListC],
    List.range_eq_range']

theorem outFilter_eq_some (a : Nat × Bar) (lr : FVal) (rv : Option (List ℚ))
    (h1 : lr ≠ FVal.nan) (h2 : rv.isSome = true) :
    outFilter (a, (lr, rv)) = some ⟨a.1, a.2, lr, rv⟩ := by
  simp [outFilter, h1, h2]

theorem clean_and_process_eq_of_pos (t : Table) (p : Row) (ps : List Row)
    (hne : t.rows ≠ []) (hp : posRows t = p :: ps) :
    clean_and_process t =
      .ok ⟨t.hasAdj, featureRows t.hasAdj (alignedRows (p :: ps))⟩ := by
  unfold clean_and_process
  rw [if_neg (by simpa using hne), hp]

/-- C3: for every input of exactly 30 consecutive business-day rows
    with strictly increasing positive close prices and no adjusted-close
    column, `clean_and_process` returns exactly 9 = 30 − 21 rows, every
    returned row has a strictly positive log-return (its encoded
    argument `q` satisfies `1 < q`, i.e. `ln q > 0`), and
    `realized_vol` is non-null on every returned row. -/
theorem thirty_day_scenario (k : Nat) (c : Nat → ℚ)
    (hpos : ∀ i, i < 30 → 0 < c i)
    (hinc : ∀ i, i + 1 < 30 → c i < c (i + 1)) :
    ∃ o : OutTable,
      clean_and_process ⟨false, consRows k 30 (fun i => ⟨c i, 0⟩)⟩ = .ok o ∧
      o.rows.length = 9 ∧
      ∀ r ∈ o.rows, (∃ q, r.log_return = .fin q ∧ 1 < q) ∧
        r.realized_vol.isSome = true := by
  have hgclose : ∀ i, i < 30 → 0 < ((fun i => (⟨c i, 0⟩ : Bar)) i).close :=
    fun i hi => hpos i hi
  have hposrows : posRows ⟨false, consRows k 30 (fun i => ⟨c i, 0⟩)⟩ =
      consRows k 30 (fun i => ⟨c i, 0⟩) :=
    consRows_posRows false k 30 _ hgclose
  have hcons : consRows k 30 (fun i => ⟨c i, 0⟩) =
      ⟨dayOf k, ⟨c 0, 0⟩⟩ ::
        (List.range' 1 29).map (fun i => ⟨dayOf (k + i), ⟨c i, 0⟩⟩) :=
    consRows_cons k 29 _
  have hne : (Table.mk false (consRows k 30 (fun i => ⟨c i, 0⟩))).rows ≠ [] := by
    rw [show (Table.mk false (consRows k 30 (fun i => ⟨c i, 0⟩))).rows =
      consRows k 30 (fun i => ⟨c i, 0⟩) from rfl, hcons]
    simp
  have haligned : alignedRows (consRows k 30 (fun i => ⟨c i, 0⟩)) =
      (List.range 30).map (fun i => (dayOf (k + i), (⟨c i, 0⟩ : Bar))) :=
    consRows_aligned k 29 _
  have hlrdef : logReturns false
      ((List.range 30).map (fun i => (dayOf (k + i), (⟨c i, 0⟩ : Bar)))) =
      lrListC c :=
    logReturns_consecutive false k 29 _
  have hfr : featureRows false
      ((List.range 30).map (fun i => (dayOf (k + i), (⟨c i, 0⟩ : Bar)))) =
      (List.range' 21 9).map (fun i =>
        OutRow.mk (dayOf (k + i)) ⟨c i, 0⟩ (lrFc c i)
          (rollingVolWindow (lrListC c) i)) := by
    rw [featureRows, hlrdef, rvList_lrListC]
    rw [show lrListC c = (List.range' 0 30).map (lrFc c) from rfl]
    rw [List.range_eq_range', List.zip_map', List.zip_map',
      List.filterMap_map]
    show (List.range' 0 30).filterMap (outAt c k) = _
    rw [show List.range' 0 30 = List.range' 0 21 ++ List.range' 21 9 from
      by decide]
    rw [List.filterMap_append]
    have hA : (List.range' 0 21).filterMap (outAt c k) = [] := by
      refine filterMap_eq_nil_of _ _ (fun i hi => ?_)
      have hi' := List.mem_range'_1.mp hi
      unfold outAt
      rw [rv_none_lrListC c i (by omega)]
      simp [outFilter]
    have hB : (List.range' 21 9).filterMap (outAt c k) =
        (List.range' 21 9).map (fun i =>
          OutRow.mk (dayOf (k + i)) ⟨c i, 0⟩ (lrFc c i)
            (rollingVolWindow (lrListC c) i)) := by
      refine filterMap_eq_map_of _ _ _ (fun i hi => ?_)
      have hi' := List.mem_range'_1.mp hi
      have hfin : lrFc c i = FVal.fin (c i / c (i - 1)) := by
        unfold lrFc
        rw [if_neg (by omega),
          npLogDiv_pos_pos (hpos _ (by omega)) (hpos _ (by omega))]
      have h1 : lrFc c i ≠ FVal.nan := by
        rw [hfin]
        intro hcontra
        cases hcontra
      have h2 := rv_some_lrListC c hpos i (by omega) (by omega)
      unfold outAt
      exact outFilter_eq_some _ _ _ h1 h2
    rw [hA, hB, List.nil_append]
    rw [show List.range' 0 21 ++ List.range' 21 9 = List.range' 0 30 from
      by decide]
    rfl
  have hmain := clean_and_process_eq_of_pos
    ⟨false, consRows k 30 (fun i => ⟨c i, 0⟩)⟩ _ _ hne
    (by rw [hposrows, hcons])
  rw [← hcons] at hmain
  rw [show (Table.mk false (consRows k 30 (fun i => ⟨c i, 0⟩))).hasAdj = false
    from rfl] at hmain
  rw [haligned, hfr] at hmain
  refine ⟨_, hmain, ?_, ?_⟩
  · simp
  · intro r hr
    obtain ⟨i, hi, rfl⟩ := List.mem_map.mp hr
    have hi' := List.mem_range'_1.mp hi
    constructor
    · refine ⟨c i / c (i - 1), ?_, ?_⟩
      · show lrFc c i = _
        unfold lrFc
        rw [if_neg (by omega),
          npLogDiv_pos_pos (hpos _ (by omega)) (hpos _ (by omega))]
      · rw [one_lt_div (hpos (i - 1) (by omega))]
        have h2 := hinc (i - 1) (by omega)
        rwa [show i - 1 + 1 = i from by omega] at h2
    · exact rv_some_lrListC c hpos i (by omega) (by omega)

/-- Witness for `thirty_day_scenario` at start day 0 and close prices
    `1, 2, …, 30`. -/
theorem thirty_day_scenario_witness :
    ∃ o : OutTable,
      clean_and_process
          ⟨false, consRows 0 30 (fun i => ⟨(i : ℚ) + 1, 0⟩)⟩ = .ok o ∧
      o.rows.length = 9 ∧
      ∀ r ∈ o.rows, (∃ q, r.log_return = .fin q ∧ 1 < q) ∧
        r.realized_vol.isSome = true :=
  thirty_day_scenario 0 (fun i => (i : ℚ) + 1)
    (fun i _ => by positivity)
    (fun i _ => by push_cast; linarith)


/-!
## C2: Processing is not idempotent
-/

theorem natMax_le_left (a b : Nat) : a ≤ Nat.max a b := by
  unfold Nat.max
  omega

theorem le_foldl_max : ∀ (rs : List Row) (a : Nat),
    a ≤ rs.foldl (fun m x => Nat.max m x.date) a := by
  intro rs
  induction rs with
  | nil => intro a; exact Nat.le_refl a
  | cons x rs ih =>
    intro a
    exact Nat.le_trans (natMax_le_left a x.date) (ih (Nat.max a x.date))

theorem dropnaAll_mem {d : Nat} {b : Bar} {l : List (Nat × Option Bar)}
    (h : (d, b) ∈ dropnaAll l) : (d, some b) ∈ l := by
  unfold dropnaAll at h
  obtain ⟨p, hp, heq⟩ := List.mem_filterMap.mp h
  obtain ⟨d', ob⟩ := p
  cases ob with
  | none => cases heq
  | some b' =>
    simp only [Option.map_some] at heq
    cases heq
    exact hp

theorem ffillGo_some_mem : ∀ (l : List (Nat × Option Bar))
    (last : Option Bar) (run : Nat) (d : Nat) (b : Bar),
    (d, some b) ∈ ffillGo last run l →
    last = some b ∨ ∃ d', (d', some b) ∈ l := by
  intro l
  induction l with
  | nil => intro last run d b h; cases h
  | cons p rest ih =>
    intro last run d b h
    obtain ⟨e, ob⟩ := p
    cases ob with
    | some x =>
      rw [show ffillGo last run ((e, some x) :: rest) =
        (e, some x) :: ffillGo (some x) 0 rest from rfl] at h
      rcases List.mem_cons.mp h with h | h
      · have hb : b = x := Option.some.inj (congrArg Prod.snd h)
        subst hb
        exact Or.inr ⟨e, List.mem_cons_self _ _⟩
      · rcases ih (some x) 0 d b h with h' | ⟨d', h'⟩
        · have hb : x = b := Option.some.inj h'
          subst hb
          exact Or.inr ⟨e, List.mem_cons_self _ _⟩
        · exact Or.inr ⟨d', List.mem_cons_of_mem _ h'⟩
    | none =>
      rw [show ffillGo last run ((e, none) :: rest) =
        (e, if run < 5 then last else none) ::
          ffillGo last (run + 1) rest from rfl] at h
      rcases List.mem_cons.mp h with h | h
      · have h2 := congrArg Prod.snd h
        by_cases hrun : run < 5
        · rw [if_pos hrun] at h2
          exact Or.inl h2.symm
        · rw [if_neg hrun] at h2
          cases h2
      · rcases ih last (run + 1) d b h with h' | ⟨d', h'⟩
        · exact Or.inl h'
        · exact Or.inr ⟨d', List.mem_cons_of_mem _ h'⟩

theorem reindex_some_mem {pos : List Row} {rng : List Nat} {d : Nat}
    {b : Bar} (h : (d, some b) ∈ reindex pos rng) :
    ∃ r ∈ pos, r.bar = b := by
  unfold reindex at h
  obtain ⟨e, _, heq⟩ := List.mem_map.mp h
  have h2 : (pos.find? (fun r => r.date = e)).map Row.bar = some b :=
    congrArg Prod.snd heq
  cases hf : pos.find? (fun r => r.date = e) with
  | none => rw [hf] at h2; exact Option.noConfusion h2
  | some r =>
    rw [hf] at h2
    have h3 : some r.bar = some b := h2
    exact ⟨r, List.mem_of_find?_eq_some hf, Option.some.inj h3⟩

theorem alignedRows_bar_mem {pos : List Row} {d : Nat} {b : Bar}
    (h : (d, b) ∈ alignedRows pos) : ∃ r ∈ pos, r.bar = b := by
  unfold alignedRows ffill5 at h
  have h1 := dropnaAll_mem h
  rcases ffillGo_some_mem _ none 0 d b h1 with h2 | ⟨d', h2⟩
  · cases h2
  · exact reindex_some_mem h2

/-- Every successful output row came from a positive-close input row and
    sits on a strictly increasing business-day grid. -/
theorem clean_ok_rows_props (t : Table) (o : OutTable)
    (h : clean_and_process t = .ok o) :
    o.rows.Pairwise (fun a b => a.date < b.date) ∧
    (∀ r ∈ o.rows, isBday r.date = true) ∧
    (∀ r ∈ o.rows, 0 < r.bar.close) := by
  unfold clean_and_process at h
  split at h
  · cases h
    simp
  · split at h
    · cases h
    · cases h
      rename_i p ps heq
      set pos := p :: ps with hpos
      have hdates : List.Sublist
          ((featureRows t.hasAdj (alignedRows pos)).map (fun r => r.date))
          (bdayRange (minDate pos) (maxDate pos)) := by
        have h1 := (featureRows_proj_sublist t.hasAdj (alignedRows pos)).map
          Prod.fst
        rw [List.map_map] at h1
        exact h1.trans (alignedRows_fst_sublist pos)
      refine ⟨List.pairwise_map.mp
        (List.Pairwise.sublist hdates (bdayRange_pairwise _ _)), ?_, ?_⟩
      · intro r hr
        have hm : r.date ∈ (featureRows t.hasAdj (alignedRows pos)).map
            (fun r => r.date) := List.mem_map_of_mem _ hr
        exact (mem_bdayRange (hdates.subset hm)).1
      · intro r hr
        have hm : (r.date, r.bar) ∈ alignedRows pos :=
          (featureRows_proj_sublist t.hasAdj (alignedRows pos)).subset
            (List.mem_map_of_mem projOut hr)
        obtain ⟨r', hr', hbar⟩ := alignedRows_bar_mem hm
        have hrpt : r' ∈ posRows t := by rw [heq]; exact hr'
        have hr'' := List.mem_filter.mp hrpt
        rw [← hbar]
        simpa using hr''.2

/-- C2 (amended): Processing is idempotent only on empty outputs.  A
    second application of `clean_and_process` to a non-empty output
    never reproduces it: `realized_vol` is recomputed with a fresh
    21-observation rolling window, so the earliest output rows (in
    particular the very first) are dropped again. -/
theorem clean_not_idempotent (t : Table) (o : OutTable)
    (h : clean_and_process t = .ok o) :
    (o.rows = [] → clean_and_process (reprocess o) = .ok ⟨o.hasAdj, []⟩) ∧
    (o.rows ≠ [] → clean_and_process (reprocess o) ≠ .ok o) := by
  obtain ⟨hpw, hbday, hclose⟩ := clean_ok_rows_props t o h
  constructor
  · intro hrows
    unfold clean_and_process reprocess
    rw [hrows]
    rfl
  · intro hne hcontra
    obtain ⟨r0, rest, hrows⟩ : ∃ r0 rest, o.rows = r0 :: rest := by
      cases hr : o.rows with
      | nil => exact absurd hr hne
      | cons a l => exact ⟨a, l, rfl⟩
    have hpw2 : ((reprocess o).rows).Pairwise
        (fun a b => a.date < b.date) := by
      unfold reprocess
      exact List.pairwise_map.mpr hpw
    have hposrows : posRows (reprocess o) = (reprocess o).rows := by
      unfold posRows
      rw [sortRows_eq_self (List.Pairwise.imp Nat.le_of_lt hpw2)]
      rw [dedupDates_eq_self (List.Pairwise.imp Nat.ne_of_lt
        (List.pairwise_map.mpr hpw2))]
      refine filter_pos_eq_self (fun x hx => ?_)
      obtain ⟨r, hr, rfl⟩ := List.mem_map.mp hx
      exact hclose r hr
    have hrows2 : (reprocess o).rows =
        ⟨r0.date, r0.bar⟩ :: rest.map (fun r => ⟨r.date, r.bar⟩) := by
      unfold reprocess
      rw [hrows, List.map_cons]
    have hmin : minDate ((reprocess o).rows) = r0.date := by
      rw [hrows2]
      refine foldl_min_stays _ _ (fun x hx => ?_)
      obtain ⟨r, hr, rfl⟩ := List.mem_map.mp hx
      have h3 := (List.pairwise_cons.mp (hrows ▸ hpw)).1 r hr
      show r0.date ≤ r.date
      exact Nat.le_of_lt h3
    have hlohi : r0.date ≤ maxDate ((reprocess o).rows) := by
      rw [hrows2]
      exact le_foldl_max _ _
    have hbd0 : isBday r0.date = true :=
      hbday r0 (hrows ▸ List.mem_cons_self r0 rest)
    have hrange : bdayRange (minDate ((reprocess o).rows))
        (maxDate ((reprocess o).rows)) =
        r0.date :: (List.range' (r0.date + 1)
          (maxDate ((reprocess o).rows) - r0.date)).filter isBday := by
      rw [hmin]
      unfold bdayRange
      rw [show maxDate ((reprocess o).rows) + 1 - r0.date =
        (maxDate ((reprocess o).rows) - r0.date) + 1 from by omega]
      rw [List.range'_succ, List.filter_cons, if_pos hbd0]
    have haligned2 : ∃ K, alignedRows ((reprocess o).rows) =
        (r0.date, r0.bar) :: K := by
      unfold alignedRows
      rw [hrange]
      rw [show reindex ((reprocess o).rows) (r0.date :: _) =
        (r0.date, (((reprocess o).rows).find?
          (fun r => r.date = r0.date)).map Row.bar) ::
        reindex ((reprocess o).rows) ((List.range' (r0.date + 1)
          (maxDate ((reprocess o).rows) - r0.date)).filter isBday)
        from rfl]
      have hfind : ((reprocess o).rows).find?
          (fun r => r.date = r0.date) = some ⟨r0.date, r0.bar⟩ := by
        have hnd2 : (((reprocess o).rows).map (fun r => r.date)).Nodup :=
          List.Pairwise.imp Nat.ne_of_lt (List.pairwise_map.mpr hpw2)
        have hmem : Row.mk r0.date r0.bar ∈ (reprocess o).rows := by
          rw [hrows2]
          exact List.mem_cons_self _ _
        exact find?_date_eq_some _ hnd2 _ hmem
      rw [hfind]
      exact ⟨_, rfl⟩
    obtain ⟨K, hK⟩ := haligned2
    have hclean2 := clean_and_process_eq_of_pos (reprocess o)
      ⟨r0.date, r0.bar⟩ (rest.map (fun r => ⟨r.date, r.bar⟩))
      (by rw [hrows2]; simp) (by rw [hposrows, hrows2])
    rw [← hrows2] at hclean2
    rw [hcontra] at hclean2
    have hrowseq : o.rows = featureRows ((reprocess o).hasAdj)
        (alignedRows ((reprocess o).rows)) := by
      have := Except.ok.inj hclean2
      exact congrArg OutTable.rows this
    have hr0mem : (r0.date, r0.bar) ∈
        (alignedRows ((reprocess o).rows)).tail := by
      refine (featureRows_proj_tail_sublist ((reprocess o).hasAdj)
        (alignedRows ((reprocess o).rows))).subset ?_
      rw [← hrowseq]
      exact List.mem_map_of_mem projOut (hrows ▸ List.mem_cons_self r0 rest)
    have hKdates : ∀ p ∈ K, r0.date < p.1 := by
      have hsub := alignedRows_fst_sublist ((reprocess o).rows)
      have hpwa : ((alignedRows ((reprocess o).rows)).map Prod.fst).Pairwise
          (· < ·) :=
        List.Pairwise.sublist hsub (bdayRange_pairwise _ _)
      rw [hK, List.map_cons] at hpwa
      intro p hp
      exact (List.pairwise_cons.mp hpwa).1 p.1
        (List.mem_map_of_mem Prod.fst hp)
    rw [hK] at hr0mem
    have := hKdates _ hr0mem
    omega

/-- C2 (counterexample to idempotence as claimed): `t30c` processes to
    the non-empty `out30c`, but re-processing `out30c` does not return
    it — the second application drops all 9 rows (a fresh 21-row rolling
    window is undefined everywhere on 9 rows). -/
theorem clean_not_idempotent_cex :
    clean_and_process t30c = .ok out30c ∧
    out30c.rows ≠ [] ∧
    clean_and_process (reprocess out30c) ≠ .ok out30c :=
  ⟨by decide, by decide, by decide⟩

/-- Witness for `clean_not_idempotent` at the concrete pair
    `(t30c, out30c)`. -/
theorem clean_not_idempotent_witness :
    (out30c.rows = [] →
      clean_and_process (reprocess out30c) = .ok ⟨out30c.hasAdj, []⟩) ∧
    (out30c.rows ≠ [] →
      clean_and_process (reprocess out30c) ≠ .ok out30c) :=
  clean_not_idempotent t30c out30c (by decide)

end MMF
